import Mathlib

/-!
Verification development for the chatduvidas retrieval pipeline.

The definitions below are a shallow embedding of the JavaScript retrieval
core of the repository:

* `src/lib/text.js`       : `normalizeStr`, `countOccurrences`
* `src/lib/similarity.js` : `dot`, `norm`, `cosineSim`
* `src/lib/context.js`    : `expandWithAdjacentPages`
* `src/api/chat.js`       : candidate-scope selection, hybrid ranking,
  page selection/limiting and context assembly (the `handler` body).

Modelling conventions:

* JavaScript numbers are modelled by a `LinearOrderedField` parameter where
  only field arithmetic and comparisons occur (the ranking pipeline), and by
  `ℝ` where a square root occurs (`cosineSim`).  `NaN` (which in the source
  can only arise in `dot` when the first vector is longer than the second,
  making `b[i]` equal `undefined`) is modelled by `Option`, `none` standing
  for `NaN`.
* A JavaScript `Map` built from an entry list is modelled by the entry list
  itself; `Map.get` returns the value of the last entry with the key
  (later entries overwrite earlier ones) and `Map.has` tests key membership.
* A JavaScript `Set` is modelled by a duplicate-free list in insertion
  order (`setAdd` appends only when absent).
* `String.prototype.trim` is modelled by `jsTrim` (dropping whitespace
  characters from both ends); `toLowerCase`, `normalize("NFD")` and the
  combining-mark strip are modelled for the ASCII plus Portuguese Latin-1
  repertoire the corpus uses, identity elsewhere.
-/

namespace ChatDuvidas

/-- Search-scope marker: `"scoped"` when the outline produced pages,
`"global"` otherwise (`searchScope` in `src/api/chat.js`). -/
inductive Scope where
  | scoped
  | global
deriving DecidableEq

/-- Page corpus as loaded from `abramede_texto.json`: `pagina → texto`
entries (`pageMap` in `src/api/chat.js`). -/
abbrev PageMap := List (Int × String)

/-- Page embeddings as loaded from `abramede_embeddings.json`:
`pagina → embedding` entries (`embByPage` in `src/api/chat.js`). -/
abbrev EmbMap (α : Type) := List (Int × List α)

/-- `Map.get` on a JS map built from an entry list: the last entry with the
key wins, `none` models `undefined`. -/
def mapGet {β : Type} (l : List (Int × β)) (k : Int) : Option β :=
  (l.reverse.find? (fun kv => kv.1 = k)).map (fun kv => kv.2)

/-- `Map.has` on a JS map built from an entry list. -/
def mapHas {β : Type} (l : List (Int × β)) (k : Int) : Bool :=
  l.any (fun kv => kv.1 = k)

/-- `Set.add`: append the element only when it is not already present
(JS sets keep insertion order and ignore duplicate adds). -/
def setAdd (s : List Int) (x : Int) : List Int :=
  if x ∈ s then s else s ++ [x]

/-- One step of the neighbour expansion in `src/api/chat.js` lines 184-187:
add `p + off` to the set when the text corpus has that page. -/
def addNeighborStep (pm : PageMap) (p : Int) (s : List Int) (off : Int) : List Int :=
  if mapHas pm (p + off) then setAdd s (p + off) else s

/-- The `[-2, -1, 1, 2].forEach(...)` loop of `src/api/chat.js` lines
184-187: add every existing neighbour of `p` to the set. -/
def addNeighbors (pm : PageMap) (p : Int) (s : List Int) : List Int :=
  ([-2, -1, 1, 2] : List Int).foldl (addNeighborStep pm p) s

/-- The `expandedSet` loop of `src/api/chat.js` lines 181-188: every outline
page is added unconditionally, neighbours only when the text corpus has
them. -/
def expandedSetOf (pagesFromSummary : List Int) (pm : PageMap) : List Int :=
  pagesFromSummary.foldl (fun s p => addNeighbors pm p (setAdd s p)) []

/-- Scoped candidate pages (`src/api/chat.js` lines 180-192): the expanded
outline neighbourhood, kept only where an embedding exists, sorted
ascending. -/
def scopedCandidates {α : Type} (pagesFromSummary : List Int) (pm : PageMap)
    (emb : EmbMap α) : List Int :=
  List.insertionSort (· ≤ ·)
    ((expandedSetOf pagesFromSummary pm).filter (fun p => mapHas emb p))

/-- Global candidate pages (`src/api/chat.js` lines 198-200): every
embedding entry whose page also has text. -/
def globalCandidates {α : Type} (pm : PageMap) (emb : EmbMap α) : List Int :=
  (emb.map (fun pe => pe.1)).filter (fun p => mapHas pm p)

/-- Scope decision of `src/api/chat.js` lines 180-201: scoped exactly when
the outline search returned at least one page. -/
def scopeOf (pagesFromSummary : List Int) : Scope :=
  if 0 < pagesFromSummary.length then Scope.scoped else Scope.global

/-- Candidate scope: the pair `(searchScope, candidatePages)` computed in
step 3 of `src/api/chat.js`. -/
def candidateScope {α : Type} (pagesFromSummary : List Int) (pm : PageMap)
    (emb : EmbMap α) : Scope × List Int :=
  if 0 < pagesFromSummary.length then
    (Scope.scoped, scopedCandidates pagesFromSummary pm emb)
  else
    (Scope.global, globalCandidates pm emb)

/-- The candidate set the spec sentence for the scoped mode describes,
stated from the claim wording: the union of each outline page and its ±2
neighbours, clipped to pages that exist in the corpus. -/
def claimScopedPred (pagesFromSummary : List Int) (pm : PageMap) (p : Int) : Prop :=
  (p ∈ pagesFromSummary ∨ ∃ o ∈ pagesFromSummary, (p - o).natAbs ≤ 2) ∧
    mapHas pm p = true

instance (S : List Int) (pm : PageMap) (p : Int) :
    Decidable (claimScopedPred S pm p) := by
  unfold claimScopedPred
  infer_instance

/-! ### `src/lib/text.js` -/

/-- Combining diacritical marks, the `[̀-ͯ]` class stripped by
`normalizeStr` in `src/lib/text.js`. -/
def isCombiningMark (c : Char) : Bool :=
  0x300 ≤ c.toNat && c.toNat ≤ 0x36F

/-- Case table for `String.prototype.toLowerCase`, modelled on the ASCII
letters plus the uppercase accented Latin-1 letters used by the Portuguese
corpus; characters outside the table are left unchanged. -/
def lowerTable : List (Char × Char) :=
  [('A', 'a'), ('B', 'b'), ('C', 'c'), ('D', 'd'), ('E', 'e'), ('F', 'f'),
   ('G', 'g'), ('H', 'h'), ('I', 'i'), ('J', 'j'), ('K', 'k'), ('L', 'l'),
   ('M', 'm'), ('N', 'n'), ('O', 'o'), ('P', 'p'), ('Q', 'q'), ('R', 'r'),
   ('S', 's'), ('T', 't'), ('U', 'u'), ('V', 'v'), ('W', 'w'), ('X', 'x'),
   ('Y', 'y'), ('Z', 'z'),
   ('À', 'à'), ('Á', 'á'), ('Â', 'â'), ('Ã', 'ã'), ('Ç', 'ç'), ('É', 'é'),
   ('Ê', 'ê'), ('Í', 'í'), ('Ó', 'ó'), ('Ô', 'ô'), ('Õ', 'õ'), ('Ú', 'ú'),
   ('Ü', 'ü')]

/-- Per-character `toLowerCase`. -/
def jsToLower (c : Char) : Char :=
  ((lowerTable.find? (fun q => q.1 = c)).map (fun q => q.2)).getD c

/-- Canonical decomposition table for `String.prototype.normalize("NFD")`,
modelled on the accented lowercase Latin-1 letters of the Portuguese
corpus; characters outside the table decompose to themselves. -/
def nfdTable : List (Char × List Char) :=
  [('à', ['a', '̀']), ('á', ['a', '́']), ('â', ['a', '̂']),
   ('ã', ['a', '̃']), ('ç', ['c', '̧']), ('é', ['e', '́']),
   ('ê', ['e', '̂']), ('í', ['i', '́']), ('ó', ['o', '́']),
   ('ô', ['o', '̂']), ('õ', ['o', '̃']), ('ú', ['u', '́']),
   ('ü', ['u', '̈'])]

/-- Per-character NFD decomposition. -/
def nfdChar (c : Char) : List Char :=
  ((nfdTable.find? (fun q => q.1 = c)).map (fun q => q.2)).getD [c]

/-- `normalizeStr` from `src/lib/text.js`: lowercase, NFD-decompose, strip
combining diacritics. -/
def normalizeStr (s : String) : String :=
  String.mk ((((s.data.map jsToLower).map nfdChar).flatten).filter
    (fun c => !(isCombiningMark c)))

/-- The per-character pipeline of `normalizeStr`: lowercase, decompose,
strip combining marks. -/
def normChar (c : Char) : List Char :=
  (nfdChar (jsToLower c)).filter (fun d => !(isCombiningMark d))

/-- The `\w` character class of the JS regexp engine (ASCII letters, digits
and underscore). -/
def isWordChar (c : Char) : Bool :=
  c.isAlphanum || c = '_'

/-- `countOccurrences` from `src/lib/text.js`: the number of matches of the
regexp `\btoken\b` in `text`.  The call sites only pass tokens made of word
characters (they come from splitting on `\W+`), for which a match is
exactly a maximal run of word characters equal to the token; the model
counts those runs.  An empty token returns 0 as in the source. -/
def countOccurrences (text token : String) : Nat :=
  if token.data = [] then 0
  else ((text.data.splitOnP (fun c => !(isWordChar c))).count token.data)

/-- `String.prototype.trim`: drop whitespace from both ends. -/
def jsTrim (s : String) : String :=
  String.mk (((s.data.dropWhile Char.isWhitespace).reverse.dropWhile
    Char.isWhitespace).reverse)

/-! ### `src/lib/similarity.js`

JS numbers are modelled by `Option ℝ` where `NaN` can arise: in `dot`,
when `a` is longer than `b`, the source reads `b[i] = undefined`, so the
accumulated sum is `NaN`; this is the only `NaN` source, modelled as
`none`. -/

/-- The value of `dot(a, b)` when every index of `a` is covered by `b`
(the `a.reduce((s, v, i) => s + v * b[i], 0)` of `src/lib/similarity.js`,
which walks the indices of `a` only). -/
noncomputable def dotTrunc (a b : List ℝ) : ℝ :=
  (a.zip b).foldl (fun s p => s + p.1 * p.2) 0

/-- `dot` from `src/lib/similarity.js`; `none` models the `NaN` produced
when `a` has more entries than `b`. -/
noncomputable def dot (a b : List ℝ) : Option ℝ :=
  if a.length ≤ b.length then some (dotTrunc a b) else none

/-- `norm` from `src/lib/similarity.js`. -/
noncomputable def norm (a : List ℝ) : ℝ :=
  Real.sqrt (a.foldl (fun s x => s + x * x) 0)

/-- `cosineSim` from `src/lib/similarity.js`:
`dot(a, b) / (norm(a) * norm(b) + 1e-8)`. -/
noncomputable def cosineSim (a b : List ℝ) : Option ℝ :=
  (dot a b).map (fun d => d / (norm a * norm b + 1 / 100000000))

/-! ### `src/lib/context.js` -/

/-- `expandWithAdjacentPages` from `src/lib/context.js`: every selected
page is added unconditionally; the `range` pages before and after it are
added only when the page map has them; the result is deduplicated (JS Set)
and sorted ascending. -/
def expandWithAdjacentPages (selectedPages : List Int) (pm : PageMap)
    (range : Nat) : List Int :=
  let expandedSet := selectedPages.foldl (fun s page =>
    let s1 := setAdd s page
    let s2 := (List.range' 1 range).foldl
      (fun s (i : Nat) => if mapHas pm (page - (i : Int)) then setAdd s (page - (i : Int)) else s) s1
    (List.range' 1 range).foldl
      (fun s (i : Nat) => if mapHas pm (page + (i : Int)) then setAdd s (page + (i : Int)) else s) s2) []
  List.insertionSort (· ≤ ·) expandedSet

/-! ### `src/api/chat.js`: hybrid ranking -/

/-- A candidate page with its raw scores, as pushed on `prelim` in
`src/api/chat.js` lines 227-239. -/
structure Prelim (α : Type) where
  pagina : Int
  embScore : α
  lexScore : Nat
  inSummary : Bool
deriving DecidableEq

/-- A ranked candidate, as produced by the `.map` of `src/api/chat.js`
lines 247-254 (`{ ...r, embNorm, lexNorm, finalScore }`). -/
structure Ranked (α : Type) where
  pagina : Int
  embScore : α
  lexScore : Nat
  inSummary : Bool
  embNorm : α
  lexNorm : α
  finalScore : α
deriving DecidableEq

/-- The running minimum `minEmb` of the scoring loop (`src/api/chat.js`
lines 225-238).  The JS initial value is `Infinity`; on any list the loop
leaves exactly the least `embScore`, which is what the fold below computes
(the sentinel value is never consumed: an empty `prelim` produces an empty
`ranked`). -/
def minEmbOf {α : Type} [LinearOrderedField α] : List (Prelim α) → α
  | [] => 0
  | r :: rs => rs.foldl (fun m x => min m x.embScore) r.embScore

/-- The running maximum `maxEmb` of the scoring loop (JS initial value
`-Infinity`). -/
def maxEmbOf {α : Type} [LinearOrderedField α] : List (Prelim α) → α
  | [] => 0
  | r :: rs => rs.foldl (fun m x => max m x.embScore) r.embScore

/-- The running maximum `maxLex` of the scoring loop (initial value 0). -/
def maxLexOf {α : Type} (l : List (Prelim α)) : Nat :=
  l.foldl (fun m x => max m x.lexScore) 0

/-- The body of the ranking `.map` (`src/api/chat.js` lines 247-254). -/
def scoreCandidate {α : Type} [LinearOrderedField α] (scope : Scope)
    (minEmb maxEmb : α) (maxLex : Nat) (r : Prelim α) : Ranked α :=
  let embNorm := (r.embScore - minEmb) / max ((1 : α) / 100000000) (maxEmb - minEmb)
  let lexNorm := if 0 < maxLex then (r.lexScore : α) / (maxLex : α) else 0
  let summaryBoost : α :=
    if r.inSummary then (if scope = Scope.scoped then 3 / 10 else 8 / 100) else 0
  let embWeight : α := if scope = Scope.scoped then 8 / 10 else 7 / 10
  let lexWeight : α := 1 - embWeight
  { pagina := r.pagina, embScore := r.embScore, lexScore := r.lexScore,
    inSummary := r.inSummary, embNorm := embNorm, lexNorm := lexNorm,
    finalScore := embWeight * embNorm + lexWeight * lexNorm + summaryBoost }

/-- The order realised by the JS comparator
`(a, b) => (b.finalScore - a.finalScore) || (a.pagina - b.pagina)` of
`src/api/chat.js` line 255: `a` precedes `b` when its score is larger, or
on exactly equal scores when its page number is at most that of `b`. -/
def rankLE {α : Type} [LinearOrderedField α] (a b : Ranked α) : Prop :=
  b.finalScore < a.finalScore ∨
    (a.finalScore = b.finalScore ∧ a.pagina ≤ b.pagina)

instance {α : Type} [LinearOrderedField α] :
    DecidableRel (rankLE (α := α)) := by
  unfold rankLE
  intro a b
  infer_instance

instance {α : Type} [LinearOrderedField α] :
    IsTotal (Ranked α) (rankLE (α := α)) := by
  constructor
  intro a b
  rcases lt_trichotomy a.finalScore b.finalScore with h | h | h
  · exact Or.inr (Or.inl h)
  · rcases le_total a.pagina b.pagina with hp | hp
    · exact Or.inl (Or.inr ⟨h, hp⟩)
    · exact Or.inr (Or.inr ⟨h.symm, hp⟩)
  · exact Or.inl (Or.inl h)

instance {α : Type} [LinearOrderedField α] :
    IsTrans (Ranked α) (rankLE (α := α)) := by
  constructor
  intro a b c hab hbc
  rcases hab with h1 | ⟨e1, p1⟩ <;> rcases hbc with h2 | ⟨e2, p2⟩
  · exact Or.inl (lt_trans h2 h1)
  · exact Or.inl (e2 ▸ h1)
  · exact Or.inl (e1 ▸ h2)
  · exact Or.inr ⟨e1.trans e2, le_trans p1 p2⟩

/-- The `ranked` list of `src/api/chat.js` lines 247-255: score every
prelim candidate with the min/max statistics of the whole candidate set,
then sort by the comparator. -/
def rankedOf {α : Type} [LinearOrderedField α] (scope : Scope)
    (prelim : List (Prelim α)) : List (Ranked α) :=
  List.insertionSort rankLE
    (prelim.map (scoreCandidate scope (minEmbOf prelim) (maxEmbOf prelim)
      (maxLexOf prelim)))

/-- Total lexical score of a page text for the question tokens
(`for (const t of qTokens) lexScore += countOccurrences(txt, t)`). -/
def lexScoreOf (qTokens : List String) (txt : String) : Nat :=
  qTokens.foldl (fun acc t => acc + countOccurrences txt t) 0

/-- The `prelim` loop of `src/api/chat.js` lines 227-239: pages without an
embedding are skipped (`if (!peEmb) continue`).  `score` stands for the
closure `cosineSim(queryEmb, ·)`; its square root lives in `ℝ`
(see `cosineSim`), while the ranking arithmetic is stated over any linear
ordered field. -/
def buildPrelim {α : Type} [LinearOrderedField α] (candidatePages : List Int)
    (emb : EmbMap α) (pm : PageMap) (score : List α → α)
    (qTokens : List String) (pagesFromSummary : List Int) : List (Prelim α) :=
  candidatePages.filterMap (fun pg =>
    (mapGet emb pg).map (fun peEmb =>
      { pagina := pg
        embScore := score peEmb
        lexScore := lexScoreOf qTokens (normalizeStr ((mapGet pm pg).getD ""))
        inSummary := pagesFromSummary.contains pg }))

/-! ### `src/api/chat.js`: page selection and context assembly -/

/-- `TOP_PAGES_TO_SELECT` (`src/api/chat.js` line 25). -/
def TOP_PAGES_TO_SELECT : Nat := 9

/-- `EXPAND_CONTEXT` (`src/api/chat.js` line 23). -/
def EXPAND_CONTEXT : Bool := false

/-- `ADJACENT_RANGE` (`src/api/chat.js` line 24). -/
def ADJACENT_RANGE : Nat := 0

/-- `MAX_CONTEXT_PAGES` (`src/api/chat.js` line 335). -/
def MAX_CONTEXT_PAGES : Nat := 10

/-- `selectedPages` (`src/api/chat.js` line 329): the pages of the top
`TOP_PAGES_TO_SELECT` ranked candidates. -/
def selectedPagesOf {α : Type} [LinearOrderedField α]
    (ranked : List (Ranked α)) : List Int :=
  (ranked.take (min TOP_PAGES_TO_SELECT ranked.length)).map (fun r => r.pagina)

/-- `finalPages` (`src/api/chat.js` lines 330-332). -/
def finalPagesOf {α : Type} [LinearOrderedField α]
    (ranked : List (Ranked α)) (pm : PageMap) : List Int :=
  if EXPAND_CONTEXT then
    expandWithAdjacentPages (selectedPagesOf ranked) pm ADJACENT_RANGE
  else selectedPagesOf ranked

/-- `nonEmptyPages` (`src/api/chat.js` line 334): keep pages whose text is
non-empty after trimming. -/
def nonEmptyPagesOf {α : Type} [LinearOrderedField α]
    (ranked : List (Ranked α)) (pm : PageMap) : List Int :=
  (finalPagesOf ranked pm).filter
    (fun p => !((jsTrim ((mapGet pm p).getD "")).isEmpty))

/-- `limitedPages` (`src/api/chat.js` lines 336-347): when more than
`MAX_CONTEXT_PAGES` pages survive, keep the best-scoring
`MAX_CONTEXT_PAGES` (score 0 for pages the ranked list does not know) and
re-sort them ascending; otherwise pass `nonEmptyPages` through
unchanged. -/
def limitedPagesOf {α : Type} [LinearOrderedField α]
    (ranked : List (Ranked α)) (pm : PageMap) : List Int :=
  let ne := nonEmptyPagesOf ranked pm
  if MAX_CONTEXT_PAGES < ne.length then
    let pagesWithScore :=
      List.insertionSort (fun a b : Int × α => b.2 ≤ a.2)
        (ne.map (fun p =>
          (p, (((ranked.find? (fun r => r.pagina = p)).map
            (fun r => r.finalScore)).getD 0))))
    List.insertionSort (· ≤ ·)
      ((pagesWithScore.take MAX_CONTEXT_PAGES).map (fun q => q.1))
  else ne

/-- `Array.prototype.join(sep)`. -/
def joinSep (sep : String) : List String → String
  | [] => ""
  | [x] => x
  | x :: y :: xs => x ++ sep ++ joinSep sep (y :: xs)

/-- One block of the assembled context
(`--- Página ${p} ---\n${(pageMap.get(p) || "").trim()}\n`,
`src/api/chat.js` line 419). -/
def pageBlock (pm : PageMap) (p : Int) : String :=
  "--- Página " ++ toString p ++ " ---\n" ++ jsTrim ((mapGet pm p).getD "") ++ "\n"

/-- `contextText` (`src/api/chat.js` line 419). -/
def contextTextOf (lp : List Int) (pm : PageMap) : String :=
  joinSep "\n" (lp.map (pageBlock pm))

/-- The retrieval-relevant outcome of one request: the pages used, the
assembled context, and whether the handler took one of the two "Não
encontrei conteúdo no livro." early returns (`src/api/chat.js` lines
257-325 and 348-415), which answer HTTP 200 with `used_pages: []`. -/
structure RetrieveResult where
  pages : List Int
  contextText : String
  notFound : Bool
deriving DecidableEq

/-- Steps 6-8 of the handler: rank, bail out on an empty ranked list,
select and limit pages, bail out when no page has usable text, otherwise
assemble the context. -/
def retrieveFrom {α : Type} [LinearOrderedField α] (scope : Scope)
    (prelim : List (Prelim α)) (pm : PageMap) : RetrieveResult :=
  let ranked := rankedOf scope prelim
  if ranked.isEmpty then { pages := [], contextText := "", notFound := true }
  else
    let lp := limitedPagesOf ranked pm
    if lp.isEmpty then { pages := [], contextText := "", notFound := true }
    else { pages := lp, contextText := contextTextOf lp pm, notFound := false }

/-- The retrieval core of the handler, from the outline result to the
assembled context (steps 3 and 5-8 of `src/api/chat.js`). -/
def retrieve {α : Type} [LinearOrderedField α] (pagesFromSummary : List Int)
    (pm : PageMap) (emb : EmbMap α) (score : List α → α)
    (qTokens : List String) : RetrieveResult :=
  let sc := candidateScope pagesFromSummary pm emb
  retrieveFrom sc.1 (buildPrelim sc.2 emb pm score qTokens pagesFromSummary) pm

/-! ### Helper lemmas -/

theorem mem_setAdd {s : List Int} {x y : Int} :
    y ∈ setAdd s x ↔ y ∈ s ∨ y = x := by
  unfold setAdd
  split
  · rename_i hx
    constructor
    · exact fun h => Or.inl h
    · rintro (h | rfl)
      · exact h
      · exact hx
  · simp

theorem nodup_setAdd {s : List Int} (x : Int) (hs : s.Nodup) :
    (setAdd s x).Nodup := by
  unfold setAdd
  split
  · exact hs
  · rename_i hx
    simpa [List.nodup_append] using ⟨hs, hx⟩

theorem mem_addNeighborStep {pm : PageMap} {p : Int} {s : List Int}
    {off y : Int} :
    y ∈ addNeighborStep pm p s off ↔
      y ∈ s ∨ (y = p + off ∧ mapHas pm y = true) := by
  unfold addNeighborStep
  split
  · rename_i hh
    rw [mem_setAdd]
    constructor
    · rintro (h | rfl)
      · exact Or.inl h
      · exact Or.inr ⟨rfl, hh⟩
    · rintro (h | ⟨rfl, _⟩)
      · exact Or.inl h
      · exact Or.inr rfl
  · rename_i hh
    constructor
    · exact fun h => Or.inl h
    · rintro (h | ⟨rfl, hy⟩)
      · exact h
      · exact absurd hy hh

theorem mem_addNeighbors {pm : PageMap} {p : Int} {s : List Int} {y : Int} :
    y ∈ addNeighbors pm p s ↔
      y ∈ s ∨ ∃ off ∈ ([-2, -1, 1, 2] : List Int),
        y = p + off ∧ mapHas pm y = true := by
  show y ∈ List.foldl (addNeighborStep pm p) s [-2, -1, 1, 2] ↔ _
  simp only [List.foldl_cons, List.foldl_nil, mem_addNeighborStep]
  constructor
  · rintro ((((h | h) | h) | h) | h)
    · exact Or.inl h
    · exact Or.inr ⟨-2, by decide, h⟩
    · exact Or.inr ⟨-1, by decide, h⟩
    · exact Or.inr ⟨1, by decide, h⟩
    · exact Or.inr ⟨2, by decide, h⟩
  · rintro (h | ⟨off, hoff, hy⟩)
    · exact Or.inl (Or.inl (Or.inl (Or.inl h)))
    · rcases List.mem_cons.1 hoff with rfl | hoff
      · exact Or.inl (Or.inl (Or.inl (Or.inr hy)))
      rcases List.mem_cons.1 hoff with rfl | hoff
      · exact Or.inl (Or.inl (Or.inr hy))
      rcases List.mem_cons.1 hoff with rfl | hoff
      · exact Or.inl (Or.inr hy)
      rcases List.mem_cons.1 hoff with rfl | hoff
      · exact Or.inr hy
      · cases hoff

theorem nodup_addNeighborStep {pm : PageMap} {p : Int} {s : List Int}
    {off : Int} (hs : s.Nodup) : (addNeighborStep pm p s off).Nodup := by
  unfold addNeighborStep
  split
  · exact nodup_setAdd _ hs
  · exact hs

theorem nodup_addNeighbors {pm : PageMap} {p : Int} {s : List Int}
    (hs : s.Nodup) : (addNeighbors pm p s).Nodup := by
  show (List.foldl (addNeighborStep pm p) s [-2, -1, 1, 2]).Nodup
  simp only [List.foldl_cons, List.foldl_nil]
  exact nodup_addNeighborStep (nodup_addNeighborStep
    (nodup_addNeighborStep (nodup_addNeighborStep hs)))

theorem mem_expandedSetOf {S : List Int} {pm : PageMap} {y : Int} :
    y ∈ expandedSetOf S pm ↔
      ∃ p ∈ S, y = p ∨ ∃ off ∈ ([-2, -1, 1, 2] : List Int),
        y = p + off ∧ mapHas pm y = true := by
  unfold expandedSetOf
  suffices h : ∀ s : List Int,
      y ∈ S.foldl (fun s p => addNeighbors pm p (setAdd s p)) s ↔
        y ∈ s ∨ ∃ p ∈ S, y = p ∨ ∃ off ∈ ([-2, -1, 1, 2] : List Int),
          y = p + off ∧ mapHas pm y = true by
    simpa using h []
  induction S with
  | nil => simp
  | cons q T ih =>
    intro s
    simp only [List.foldl_cons, ih, mem_addNeighbors, mem_setAdd]
    constructor
    · rintro (((h | hq) | h) | ⟨p, hp, hy⟩)
      · exact Or.inl h
      · exact Or.inr ⟨q, List.mem_cons_self q T, Or.inl hq⟩
      · exact Or.inr ⟨q, List.mem_cons_self q T, Or.inr h⟩
      · exact Or.inr ⟨p, List.mem_cons_of_mem q hp, hy⟩
    · rintro (h | ⟨p, hp, hy⟩)
      · exact Or.inl (Or.inl (Or.inl h))
      · rcases List.mem_cons.1 hp with hpq | hp
        · subst hpq
          rcases hy with hyp | h
          · exact Or.inl (Or.inl (Or.inr hyp))
          · exact Or.inl (Or.inr h)
        · exact Or.inr ⟨p, hp, hy⟩

theorem nodup_expandedSetOf {S : List Int} {pm : PageMap} :
    (expandedSetOf S pm).Nodup := by
  unfold expandedSetOf
  suffices h : ∀ s : List Int, s.Nodup →
      (S.foldl (fun s p => addNeighbors pm p (setAdd s p)) s).Nodup from
    h [] List.nodup_nil
  induction S with
  | nil => exact fun s hs => hs
  | cons p S ih =>
    intro s hs
    exact ih _ (nodup_addNeighbors (nodup_setAdd _ hs))

theorem mapHas_iff {β : Type} {l : List (Int × β)} {k : Int} :
    mapHas l k = true ↔ ∃ kv ∈ l, kv.1 = k := by
  unfold mapHas
  simp [List.any_eq_true]

theorem mem_scopedCandidates {α : Type} {S : List Int} {pm : PageMap}
    {emb : EmbMap α} {p : Int} :
    p ∈ scopedCandidates S pm emb ↔
      ((p ∈ S ∨ ∃ o ∈ S, ∃ off ∈ ([-2, -1, 1, 2] : List Int),
          p = o + off ∧ mapHas pm p = true) ∧ mapHas emb p = true) := by
  unfold scopedCandidates
  rw [List.mem_insertionSort, List.mem_filter, mem_expandedSetOf]
  constructor
  · rintro ⟨⟨q, hq, rfl | h⟩, hemb⟩
    · exact ⟨Or.inl hq, hemb⟩
    · exact ⟨Or.inr ⟨q, hq, h⟩, hemb⟩
  · rintro ⟨h | ⟨o, ho, h⟩, hemb⟩
    · exact ⟨⟨p, h, Or.inl rfl⟩, hemb⟩
    · exact ⟨⟨o, ho, Or.inr h⟩, hemb⟩

theorem mem_globalCandidates {α : Type} {pm : PageMap} {emb : EmbMap α}
    {p : Int} :
    p ∈ globalCandidates pm emb ↔
      mapHas emb p = true ∧ mapHas pm p = true := by
  unfold globalCandidates
  rw [List.mem_filter]
  constructor
  · rintro ⟨hmem, hpm⟩
    refine ⟨?_, by simpa using hpm⟩
    rw [mapHas_iff]
    rcases List.mem_map.1 hmem with ⟨kv, hkv, rfl⟩
    exact ⟨kv, hkv, rfl⟩
  · rintro ⟨hemb, hpm⟩
    refine ⟨?_, by simpa using hpm⟩
    rcases mapHas_iff.1 hemb with ⟨kv, hkv, hk⟩
    exact List.mem_map.2 ⟨kv, hkv, hk⟩

theorem foldl_min_le_init {α : Type} [LinearOrderedField α]
    (l : List (Prelim α)) (init : α) :
    l.foldl (fun m x => min m x.embScore) init ≤ init := by
  induction l generalizing init with
  | nil => exact le_refl init
  | cons a t ih =>
    exact le_trans (ih (min init a.embScore)) (min_le_left _ _)

theorem foldl_min_le_mem {α : Type} [LinearOrderedField α]
    (l : List (Prelim α)) (init : α) {r : Prelim α} (h : r ∈ l) :
    l.foldl (fun m x => min m x.embScore) init ≤ r.embScore := by
  induction l generalizing init with
  | nil => cases h
  | cons a t ih =>
    rcases List.mem_cons.1 h with rfl | h
    · exact le_trans (foldl_min_le_init t (min init r.embScore))
        (min_le_right _ _)
    · exact ih (min init a.embScore) h

theorem foldl_min_attained {α : Type} [LinearOrderedField α]
    (l : List (Prelim α)) (init : α) :
    l.foldl (fun m x => min m x.embScore) init = init ∨
      ∃ x ∈ l, l.foldl (fun m x => min m x.embScore) init = x.embScore := by
  induction l generalizing init with
  | nil => exact Or.inl rfl
  | cons a t ih =>
    rcases ih (min init a.embScore) with h | ⟨x, hx, h⟩
    · rcases min_cases init a.embScore with ⟨hm, _⟩ | ⟨hm, _⟩
      · exact Or.inl (by rw [List.foldl_cons, h, hm])
      · exact Or.inr ⟨a, List.mem_cons_self a t, by rw [List.foldl_cons, h, hm]⟩
    · exact Or.inr ⟨x, List.mem_cons_of_mem a hx, by rw [List.foldl_cons, h]⟩

theorem foldl_max_init_le {α : Type} [LinearOrderedField α]
    (l : List (Prelim α)) (init : α) :
    init ≤ l.foldl (fun m x => max m x.embScore) init := by
  induction l generalizing init with
  | nil => exact le_refl init
  | cons a t ih =>
    exact le_trans (le_max_left _ _) (ih (max init a.embScore))

theorem foldl_max_mem_le {α : Type} [LinearOrderedField α]
    (l : List (Prelim α)) (init : α) {r : Prelim α} (h : r ∈ l) :
    r.embScore ≤ l.foldl (fun m x => max m x.embScore) init := by
  induction l generalizing init with
  | nil => cases h
  | cons a t ih =>
    rcases List.mem_cons.1 h with rfl | h
    · exact le_trans (le_max_right _ _)
        (foldl_max_init_le t (max init r.embScore))
    · exact ih (max init a.embScore) h

theorem foldl_max_attained {α : Type} [LinearOrderedField α]
    (l : List (Prelim α)) (init : α) :
    l.foldl (fun m x => max m x.embScore) init = init ∨
      ∃ x ∈ l, l.foldl (fun m x => max m x.embScore) init = x.embScore := by
  induction l generalizing init with
  | nil => exact Or.inl rfl
  | cons a t ih =>
    rcases ih (max init a.embScore) with h | ⟨x, hx, h⟩
    · rcases max_cases init a.embScore with ⟨hm, _⟩ | ⟨hm, _⟩
      · exact Or.inl (by rw [List.foldl_cons, h, hm])
      · exact Or.inr ⟨a, List.mem_cons_self a t, by rw [List.foldl_cons, h, hm]⟩
    · exact Or.inr ⟨x, List.mem_cons_of_mem a hx, by rw [List.foldl_cons, h]⟩

theorem minEmbOf_le {α : Type} [LinearOrderedField α]
    {prelim : List (Prelim α)} {r : Prelim α} (h : r ∈ prelim) :
    minEmbOf prelim ≤ r.embScore := by
  cases prelim with
  | nil => cases h
  | cons a t =>
    rcases List.mem_cons.1 h with rfl | h
    · exact foldl_min_le_init t r.embScore
    · exact foldl_min_le_mem t a.embScore h

theorem le_maxEmbOf {α : Type} [LinearOrderedField α]
    {prelim : List (Prelim α)} {r : Prelim α} (h : r ∈ prelim) :
    r.embScore ≤ maxEmbOf prelim := by
  cases prelim with
  | nil => cases h
  | cons a t =>
    rcases List.mem_cons.1 h with rfl | h
    · exact foldl_max_init_le t r.embScore
    · exact foldl_max_mem_le t a.embScore h

theorem minEmbOf_attained {α : Type} [LinearOrderedField α]
    {prelim : List (Prelim α)} (h : prelim ≠ []) :
    ∃ a ∈ prelim, minEmbOf prelim = a.embScore := by
  cases prelim with
  | nil => exact absurd rfl h
  | cons a t =>
    rcases foldl_min_attained t a.embScore with h1 | ⟨x, hx, h1⟩
    · exact ⟨a, List.mem_cons_self a t, h1⟩
    · exact ⟨x, List.mem_cons_of_mem a hx, h1⟩

theorem maxEmbOf_attained {α : Type} [LinearOrderedField α]
    {prelim : List (Prelim α)} (h : prelim ≠ []) :
    ∃ a ∈ prelim, maxEmbOf prelim = a.embScore := by
  cases prelim with
  | nil => exact absurd rfl h
  | cons a t =>
    rcases foldl_max_attained t a.embScore with h1 | ⟨x, hx, h1⟩
    · exact ⟨a, List.mem_cons_self a t, h1⟩
    · exact ⟨x, List.mem_cons_of_mem a hx, h1⟩

theorem mem_addIf {pm : PageMap} {s : List Int} {v y : Int} :
    y ∈ (if mapHas pm v then setAdd s v else s) ↔
      y ∈ s ∨ (y = v ∧ mapHas pm y = true) := by
  split
  · rename_i hh
    rw [mem_setAdd]
    constructor
    · rintro (h | rfl)
      · exact Or.inl h
      · exact Or.inr ⟨rfl, hh⟩
    · rintro (h | ⟨rfl, _⟩)
      · exact Or.inl h
      · exact Or.inr rfl
  · rename_i hh
    constructor
    · exact fun h => Or.inl h
    · rintro (h | ⟨rfl, hy⟩)
      · exact h
      · exact absurd hy hh

theorem mem_foldl_addIf {pm : PageMap} (f : Nat → Int) (L : List Nat) :
    ∀ (s : List Int) (y : Int),
      y ∈ L.foldl (fun s i => if mapHas pm (f i) then setAdd s (f i) else s) s ↔
        y ∈ s ∨ ∃ i ∈ L, y = f i ∧ mapHas pm y = true := by
  induction L with
  | nil => simp
  | cons j L ih =>
    intro s y
    rw [List.foldl_cons, ih, mem_addIf]
    constructor
    · rintro ((h | h) | ⟨i, hi, h⟩)
      · exact Or.inl h
      · exact Or.inr ⟨j, List.mem_cons_self j L, h⟩
      · exact Or.inr ⟨i, List.mem_cons_of_mem j hi, h⟩
    · rintro (h | ⟨i, hi, h⟩)
      · exact Or.inl (Or.inl h)
      · rcases List.mem_cons.1 hi with rfl | hi
        · exact Or.inl (Or.inr h)
        · exact Or.inr ⟨i, hi, h⟩

theorem nodup_foldl_addIf {pm : PageMap} (f : Nat → Int) (L : List Nat) :
    ∀ (s : List Int), s.Nodup →
      (L.foldl (fun s i => if mapHas pm (f i) then setAdd s (f i) else s) s).Nodup := by
  induction L with
  | nil => exact fun s hs => hs
  | cons j L ih =>
    intro s hs
    rw [List.foldl_cons]
    apply ih
    split
    · exact nodup_setAdd _ hs
    · exact hs

theorem mem_expandBody {pm : PageMap} {range : Nat} {page : Int}
    {s : List Int} {y : Int} :
    y ∈ ((List.range' 1 range).foldl
        (fun s (i : Nat) => if mapHas pm (page + (i : Int)) then setAdd s (page + (i : Int)) else s)
        ((List.range' 1 range).foldl
          (fun s (i : Nat) => if mapHas pm (page - (i : Int)) then setAdd s (page - (i : Int)) else s)
          (setAdd s page))) ↔
      y ∈ s ∨ y = page ∨ ∃ i ∈ List.range' 1 range,
        (y = page - (i : Int) ∨ y = page + (i : Int)) ∧ mapHas pm y = true := by
  rw [mem_foldl_addIf (fun i => page + (i : Int)),
    mem_foldl_addIf (fun i => page - (i : Int)), mem_setAdd]
  constructor
  · rintro (((h | h) | ⟨i, hi, h1, h2⟩) | ⟨i, hi, h1, h2⟩)
    · exact Or.inl h
    · exact Or.inr (Or.inl h)
    · exact Or.inr (Or.inr ⟨i, hi, Or.inl h1, h2⟩)
    · exact Or.inr (Or.inr ⟨i, hi, Or.inr h1, h2⟩)
  · rintro (h | h | ⟨i, hi, (h1 | h1), h2⟩)
    · exact Or.inl (Or.inl (Or.inl h))
    · exact Or.inl (Or.inl (Or.inr h))
    · exact Or.inl (Or.inr ⟨i, hi, h1, h2⟩)
    · exact Or.inr ⟨i, hi, h1, h2⟩

theorem mem_expandWithAdjacentPages {sel : List Int} {pm : PageMap}
    {range : Nat} {y : Int} :
    y ∈ expandWithAdjacentPages sel pm range ↔
      ∃ p ∈ sel, y = p ∨ ∃ i ∈ List.range' 1 range,
        (y = p - (i : Int) ∨ y = p + (i : Int)) ∧ mapHas pm y = true := by
  unfold expandWithAdjacentPages
  rw [List.mem_insertionSort]
  suffices h : ∀ s : List Int,
      (y ∈ sel.foldl (fun s page =>
        (List.range' 1 range).foldl
          (fun s (i : Nat) => if mapHas pm (page + (i : Int)) then setAdd s (page + (i : Int)) else s)
          ((List.range' 1 range).foldl
            (fun s (i : Nat) => if mapHas pm (page - (i : Int)) then setAdd s (page - (i : Int)) else s)
            (setAdd s page)) ) s ↔
        y ∈ s ∨ ∃ p ∈ sel, y = p ∨ ∃ i ∈ List.range' 1 range,
          (y = p - (i : Int) ∨ y = p + (i : Int)) ∧ mapHas pm y = true) by
    simpa using h []
  induction sel with
  | nil => simp
  | cons q T ih =>
    intro s
    rw [List.foldl_cons, ih, mem_expandBody]
    constructor
    · rintro ((h | h | h) | ⟨p, hp, hy⟩)
      · exact Or.inl h
      · exact Or.inr ⟨q, List.mem_cons_self q T, Or.inl h⟩
      · exact Or.inr ⟨q, List.mem_cons_self q T, Or.inr h⟩
      · exact Or.inr ⟨p, List.mem_cons_of_mem q hp, hy⟩
    · rintro (h | ⟨p, hp, hy⟩)
      · exact Or.inl (Or.inl h)
      · rcases List.mem_cons.1 hp with hpq | hp
        · subst hpq
          rcases hy with h | h
          · exact Or.inl (Or.inr (Or.inl h))
          · exact Or.inl (Or.inr (Or.inr h))
        · exact Or.inr ⟨p, hp, hy⟩

theorem nodup_expandWithAdjacentPages {sel : List Int} {pm : PageMap}
    {range : Nat} : (expandWithAdjacentPages sel pm range).Nodup := by
  unfold expandWithAdjacentPages
  rw [(List.perm_insertionSort _ _).nodup_iff]
  suffices h : ∀ s : List Int, s.Nodup →
      (sel.foldl (fun s page =>
        (List.range' 1 range).foldl
          (fun s (i : Nat) => if mapHas pm (page + (i : Int)) then setAdd s (page + (i : Int)) else s)
          ((List.range' 1 range).foldl
            (fun s (i : Nat) => if mapHas pm (page - (i : Int)) then setAdd s (page - (i : Int)) else s)
            (setAdd s page)) ) s).Nodup from
    h [] List.nodup_nil
  induction sel with
  | nil => exact fun s hs => hs
  | cons q T ih =>
    intro s hs
    rw [List.foldl_cons]
    exact ih _ (nodup_foldl_addIf (fun i => q + (i : Int)) _ _
      (nodup_foldl_addIf (fun i => q - (i : Int)) _ _ (nodup_setAdd _ hs)))

theorem sorted_expandWithAdjacentPages {sel : List Int} {pm : PageMap}
    {range : Nat} :
    List.Sorted (· ≤ ·) (expandWithAdjacentPages sel pm range) :=
  List.sorted_insertionSort _ _

theorem mem_range_one {i n : Nat} :
    i ∈ List.range' 1 n ↔ 1 ≤ i ∧ i ≤ n := by
  rw [List.mem_range']
  constructor
  · rintro ⟨j, hj, rfl⟩
    omega
  · rintro ⟨h1, h2⟩
    exact ⟨i - 1, by omega, by omega⟩

theorem joinSep_infix (sep : String) (l : List String) :
    ∀ x ∈ l, ∃ pre post, joinSep sep l = pre ++ x ++ post := by
  induction l with
  | nil => intro x hx; cases hx
  | cons a t ih =>
    intro x hx
    cases t with
    | nil =>
      rcases List.mem_singleton.1 hx with rfl
      exact ⟨"", "", by rw [String.append_empty, String.empty_append]; rfl⟩
    | cons b t2 =>
      rcases List.mem_cons.1 hx with rfl | hx2
      · refine ⟨"", sep ++ joinSep sep (b :: t2), ?_⟩
        rw [String.empty_append]
        show x ++ sep ++ joinSep sep (b :: t2) = _
        rw [String.append_assoc]
      · rcases ih x hx2 with ⟨pre, post, hp⟩
        refine ⟨a ++ sep ++ pre, post, ?_⟩
        show a ++ sep ++ joinSep sep (b :: t2) = _
        rw [hp]
        simp [String.append_assoc]

theorem length_selectedPagesOf {α : Type} [LinearOrderedField α]
    (ranked : List (Ranked α)) :
    (selectedPagesOf ranked).length ≤ TOP_PAGES_TO_SELECT := by
  unfold selectedPagesOf
  rw [List.length_map, List.length_take]
  exact le_trans (min_le_left _ _) (min_le_left _ _)

theorem nonEmptyPagesOf_eq {α : Type} [LinearOrderedField α]
    (ranked : List (Ranked α)) (pm : PageMap) :
    nonEmptyPagesOf ranked pm = (selectedPagesOf ranked).filter
      (fun p => !((jsTrim ((mapGet pm p).getD "")).isEmpty)) := by
  unfold nonEmptyPagesOf finalPagesOf EXPAND_CONTEXT
  rw [if_neg]
  exact fun h => Bool.noConfusion h

theorem limitedPagesOf_eq {α : Type} [LinearOrderedField α]
    (ranked : List (Ranked α)) (pm : PageMap) :
    limitedPagesOf ranked pm = nonEmptyPagesOf ranked pm := by
  unfold limitedPagesOf
  rw [if_neg]
  intro hgt
  have h1 : (nonEmptyPagesOf ranked pm).length ≤ TOP_PAGES_TO_SELECT := by
    rw [nonEmptyPagesOf_eq]
    exact le_trans (List.length_filter_le _ _) (length_selectedPagesOf ranked)
  unfold TOP_PAGES_TO_SELECT at h1
  unfold MAX_CONTEXT_PAGES at hgt
  omega

theorem normalizeStr_mk_data (s : String) :
    normalizeStr s = String.mk ((s.data.map normChar).flatten) := by
  unfold normalizeStr normChar
  congr 1
  rw [List.filter_flatten, List.map_map, List.map_map]
  rfl

theorem charProps : ∀ c : Char, ∀ d ∈ normChar c,
    jsToLower d = d ∧ nfdChar d = [d] ∧ isCombiningMark d = false := by
  intro c d hd
  unfold normChar at hd
  obtain ⟨hdn, hmark⟩ := List.mem_filter.1 hd
  have hmark2 : isCombiningMark d = false := by simpa using hmark
  cases hfind : lowerTable.find? (fun q => q.1 = c) with
  | none =>
    have hl : jsToLower c = c := by unfold jsToLower; rw [hfind]; rfl
    rw [hl] at hdn
    cases hnfd : nfdTable.find? (fun q => q.1 = c) with
    | none =>
      have hn : nfdChar c = [c] := by unfold nfdChar; rw [hnfd]; rfl
      rw [hn] at hdn
      rcases List.mem_singleton.1 hdn with rfl
      exact ⟨hl, hn, hmark2⟩
    | some q =>
      have hq : q ∈ nfdTable := List.mem_of_find?_eq_some hnfd
      have hn : nfdChar c = q.2 := by unfold nfdChar; rw [hnfd]; rfl
      rw [hn] at hdn
      have key : ∀ q ∈ nfdTable, ∀ d ∈ q.2, isCombiningMark d = false →
          jsToLower d = d ∧ nfdChar d = [d] := by decide
      exact ⟨(key q hq d hdn hmark2).1, (key q hq d hdn hmark2).2, hmark2⟩
  | some p =>
    have hp : p ∈ lowerTable := List.mem_of_find?_eq_some hfind
    have hl : jsToLower c = p.2 := by unfold jsToLower; rw [hfind]; rfl
    rw [hl] at hdn
    have key : ∀ p ∈ lowerTable, ∀ d ∈ nfdChar p.2, isCombiningMark d = false →
        jsToLower d = d ∧ nfdChar d = [d] := by decide
    exact ⟨(key p hp d hdn hmark2).1, (key p hp d hdn hmark2).2, hmark2⟩

theorem normChar_fix (c : Char) {d : Char} (hd : d ∈ normChar c) :
    normChar d = [d] := by
  obtain ⟨h1, h2, h3⟩ := charProps c d hd
  unfold normChar
  rw [h1, h2]
  simp [h3]

theorem flatten_normChar_fix (l : List Char)
    (h : ∀ d ∈ l, normChar d = [d]) : (l.map normChar).flatten = l := by
  induction l with
  | nil => rfl
  | cons c t ih =>
    rw [List.map_cons, List.flatten_cons, h c (List.mem_cons_self c t),
      ih (fun d hd => h d (List.mem_cons_of_mem c hd))]
    rfl

theorem dropWhile_of_head_false {p : Char → Bool} {c : Char}
    (h : p c = false) (n : Nat) :
    (List.replicate n c).dropWhile p = List.replicate n c := by
  cases n with
  | zero => rfl
  | succ m => rw [List.replicate_succ, List.dropWhile_cons, h]; simp

theorem retrieveFrom_eq_found {α : Type} [LinearOrderedField α] (scope : Scope)
    (prelim : List (Prelim α)) (pm : PageMap)
    (h1 : (rankedOf scope prelim).isEmpty = false)
    (h2 : (limitedPagesOf (rankedOf scope prelim) pm).isEmpty = false) :
    retrieveFrom scope prelim pm =
      { pages := limitedPagesOf (rankedOf scope prelim) pm,
        contextText := contextTextOf (limitedPagesOf (rankedOf scope prelim) pm) pm,
        notFound := false } := by
  unfold retrieveFrom
  simp only [h1, h2, Bool.false_eq_true, if_false]

/-! ### Claim theorems -/

/-- C1: for every candidate set scored by the hybrid ranker, the ranked
output is sorted by `finalScore` descending, and any two candidates with
exactly equal `finalScore` appear in ascending page-number order; ranking
the same candidate set twice yields the identical ordering (the ranker is
a function of its inputs). -/
theorem C1_ranked_sorted_deterministic {α : Type} [LinearOrderedField α]
    (scope : Scope) (prelim : List (Prelim α)) :
    List.Pairwise (fun a b : Ranked α =>
        b.finalScore < a.finalScore ∨
          (a.finalScore = b.finalScore ∧ a.pagina ≤ b.pagina))
      (rankedOf scope prelim)
    ∧ rankedOf scope prelim = rankedOf scope prelim :=
  ⟨List.sorted_insertionSort rankLE _, rfl⟩

/-- C2: every candidate's final score equals
`embWeight·embeddingNorm + lexWeight·lexicalNorm + outline boost`, with
`embWeight = 0.8` and boost `0.3` in scoped mode, `embWeight = 0.7` and
boost `0.08` in global mode, `lexWeight = 1 − embWeight`, boost `0` outside
the outline set, and with the embedding norm min-max normalised over the
candidate set under an `ε = 1e-8` denominator guard (the min and max are
those of the candidate set: they bound every candidate and are attained). -/
theorem C2_finalScore_formula {α : Type} [LinearOrderedField α]
    (scope : Scope) (prelim : List (Prelim α)) (r : Prelim α)
    (h : r ∈ prelim) :
    (scoreCandidate scope (minEmbOf prelim) (maxEmbOf prelim)
        (maxLexOf prelim) r).finalScore
      = (if scope = Scope.scoped then (8 : α) / 10 else 7 / 10) *
          ((r.embScore - minEmbOf prelim) /
            max ((1 : α) / 100000000) (maxEmbOf prelim - minEmbOf prelim))
        + (1 - (if scope = Scope.scoped then (8 : α) / 10 else 7 / 10)) *
          (if 0 < maxLexOf prelim then (r.lexScore : α) / (maxLexOf prelim : α) else 0)
        + (if r.inSummary then (if scope = Scope.scoped then (3 : α) / 10 else 8 / 100) else 0)
    ∧ minEmbOf prelim ≤ r.embScore ∧ r.embScore ≤ maxEmbOf prelim
    ∧ (∃ a ∈ prelim, minEmbOf prelim = a.embScore)
    ∧ (∃ b ∈ prelim, maxEmbOf prelim = b.embScore) :=
  ⟨rfl, minEmbOf_le h, le_maxEmbOf h,
    minEmbOf_attained (List.ne_nil_of_mem h),
    maxEmbOf_attained (List.ne_nil_of_mem h)⟩

/-- Witness for C2 at the one-candidate set `[⟨1, 0, 0, false⟩]`. -/
theorem C2_finalScore_formula_witness :
    minEmbOf ([⟨1, 0, 0, false⟩] : List (Prelim ℚ)) ≤ (0 : ℚ)
    ∧ (∃ a ∈ ([⟨1, 0, 0, false⟩] : List (Prelim ℚ)),
        minEmbOf ([⟨1, 0, 0, false⟩] : List (Prelim ℚ)) = a.embScore) :=
  ⟨(C2_finalScore_formula Scope.global [⟨1, 0, 0, false⟩] ⟨1, 0, 0, false⟩
      (List.mem_singleton.2 rfl)).2.1,
    (C2_finalScore_formula Scope.global [⟨1, 0, 0, false⟩] ⟨1, 0, 0, false⟩
      (List.mem_singleton.2 rfl)).2.2.2.1⟩

/-- C3 counterexample: with outline page 5, text corpus {4, 5, 6} and an
embedding only for page 5, page 4 lies in the candidate set the claim
describes (a ±2 neighbour of an outline page that exists in the corpus),
but the code's candidate set is `[5]`: the code additionally discards
every page without an embedding. -/
theorem C3_counterexample :
    claimScopedPred [5] [(4, "a"), (5, "b"), (6, "c")] 4
    ∧ 4 ∉ scopedCandidates (α := ℚ) [5] [(4, "a"), (5, "b"), (6, "c")] [(5, [1])]
    ∧ (candidateScope (α := ℚ) [5] [(4, "a"), (5, "b"), (6, "c")] [(5, [1])]).2 = [5] := by
  refine ⟨?_, by decide, by decide⟩
  exact ⟨Or.inr ⟨5, by decide, by decide⟩, by decide⟩

/-- C3 (amended): when outline matching returns a non-empty page set the
mode is scoped, and the candidate set consists of the pages that have an
embedding among the outline pages (taken unconditionally, not clipped to
the text corpus) together with their ±2 neighbours that exist in the text
corpus; when it returns an empty set the mode is global and the candidate
set is every page with both text and an embedding. -/
theorem C3_scope_candidates {α : Type} (S : List Int) (pm : PageMap)
    (emb : EmbMap α) (p : Int) :
    (p ∈ scopedCandidates S pm emb ↔
      ((p ∈ S ∨ ∃ o ∈ S, ∃ off ∈ ([-2, -1, 1, 2] : List Int),
          p = o + off ∧ mapHas pm p = true) ∧ mapHas emb p = true))
    ∧ (p ∈ globalCandidates pm emb ↔ (mapHas emb p = true ∧ mapHas pm p = true))
    ∧ ((candidateScope S pm emb).1 = Scope.scoped ↔ S ≠ [])
    ∧ (S ≠ [] → (candidateScope S pm emb).2 = scopedCandidates S pm emb)
    ∧ (S = [] → (candidateScope S pm emb).2 = globalCandidates pm emb) := by
  refine ⟨mem_scopedCandidates, mem_globalCandidates, ?_, ?_, ?_⟩
  · unfold candidateScope
    cases S with
    | nil => simp
    | cons a t => simp
  · intro h
    unfold candidateScope
    rw [if_pos]
    cases S with
    | nil => exact absurd rfl h
    | cons a t => exact Nat.succ_pos _
  · intro h
    subst h
    rfl

/-- Witness for C3 (amended) at outline `[5]`, corpus `{4, 5, 6}`,
embeddings `{5}`. -/
theorem C3_scope_candidates_witness :
    (candidateScope (α := ℚ) [5] [(4, "a"), (5, "b"), (6, "c")] [(5, [1])]).2
      = scopedCandidates [5] [(4, "a"), (5, "b"), (6, "c")] [(5, [1])] :=
  (C3_scope_candidates [5] [(4, "a"), (5, "b"), (6, "c")] [(5, [1])] 0).2.2.2.1
    (by decide)

/-- C4 counterexample: two candidates on pages 3 and 5, both with text,
page 5 scoring higher; the final page list used to build the context is
`[5, 3]` — ranking order, not ascending page order. -/
theorem C4_counterexample :
    limitedPagesOf (rankedOf Scope.global
        ([⟨3, 0, 0, false⟩, ⟨5, 1, 0, false⟩] : List (Prelim ℚ)))
        [(3, "x"), (5, "y")] = [5, 3]
    ∧ ¬ List.Sorted (· ≤ ·)
        (limitedPagesOf (rankedOf Scope.global
          ([⟨3, 0, 0, false⟩, ⟨5, 1, 0, false⟩] : List (Prelim ℚ)))
          [(3, "x"), (5, "y")]) := by
  have hrank : rankedOf Scope.global
      ([⟨3, 0, 0, false⟩, ⟨5, 1, 0, false⟩] : List (Prelim ℚ))
      = [scoreCandidate Scope.global 0 1 0 ⟨5, 1, 0, false⟩,
         scoreCandidate Scope.global 0 1 0 ⟨3, 0, 0, false⟩] := by
    have hmin : minEmbOf ([⟨3, 0, 0, false⟩, ⟨5, 1, 0, false⟩] : List (Prelim ℚ)) = 0 := by
      norm_num [minEmbOf]
    have hmax : maxEmbOf ([⟨3, 0, 0, false⟩, ⟨5, 1, 0, false⟩] : List (Prelim ℚ)) = 1 := by
      norm_num [maxEmbOf]
    have hlex : maxLexOf ([⟨3, 0, 0, false⟩, ⟨5, 1, 0, false⟩] : List (Prelim ℚ)) = 0 := by
      norm_num [maxLexOf]
    unfold rankedOf
    rw [hmin, hmax, hlex]
    show List.insertionSort rankLE
      [scoreCandidate Scope.global 0 1 0 ⟨3, 0, 0, false⟩,
       scoreCandidate Scope.global 0 1 0 ⟨5, 1, 0, false⟩] = _
    have hfs3 : (scoreCandidate Scope.global (0 : ℚ) 1 0 ⟨3, 0, 0, false⟩).finalScore = 0 := by
      norm_num [scoreCandidate]
    have hfs5 : (scoreCandidate Scope.global (0 : ℚ) 1 0 ⟨5, 1, 0, false⟩).finalScore = 7 / 10 := by
      norm_num [scoreCandidate]
      decide
    have hn : ¬ rankLE (scoreCandidate Scope.global (0 : ℚ) 1 0 ⟨3, 0, 0, false⟩)
        (scoreCandidate Scope.global 0 1 0 ⟨5, 1, 0, false⟩) := by
      rw [rankLE, hfs3, hfs5]
      push_neg
      norm_num
    show List.orderedInsert rankLE _ (List.orderedInsert rankLE _ []) = _
    rw [List.orderedInsert, List.orderedInsert, if_neg hn]
    rfl
  have h1 : limitedPagesOf (rankedOf Scope.global
      ([⟨3, 0, 0, false⟩, ⟨5, 1, 0, false⟩] : List (Prelim ℚ)))
      [(3, "x"), (5, "y")] = [5, 3] := by
    rw [hrank, limitedPagesOf_eq, nonEmptyPagesOf_eq]
    norm_num [TOP_PAGES_TO_SELECT, scoreCandidate]
    decide
  exact ⟨h1, by rw [h1]; decide⟩

/-- C4 (amended): the final page list used to build the context equals the
top-selected pages in ranking order restricted to the pages with non-empty
trimmed text; it is deduplicated whenever the selected pages are; every
entry has non-empty trimmed text; it is empty exactly when no selected
(top-ranked) page had usable text — lower-ranked candidates with text
cannot prevent the empty outcome. -/
theorem C4_limitedPages_spec {α : Type} [LinearOrderedField α]
    (ranked : List (Ranked α)) (pm : PageMap) :
    limitedPagesOf ranked pm = (selectedPagesOf ranked).filter
        (fun p => !((jsTrim ((mapGet pm p).getD "")).isEmpty))
    ∧ (∀ p ∈ limitedPagesOf ranked pm, jsTrim ((mapGet pm p).getD "") ≠ "")
    ∧ ((selectedPagesOf ranked).Nodup → (limitedPagesOf ranked pm).Nodup)
    ∧ (limitedPagesOf ranked pm = [] ↔
        ∀ p ∈ selectedPagesOf ranked, jsTrim ((mapGet pm p).getD "") = "") := by
  have he : limitedPagesOf ranked pm = (selectedPagesOf ranked).filter
      (fun p => !((jsTrim ((mapGet pm p).getD "")).isEmpty)) :=
    (limitedPagesOf_eq ranked pm).trans (nonEmptyPagesOf_eq ranked pm)
  refine ⟨he, ?_, ?_, ?_⟩
  · intro p hp
    rw [he] at hp
    have h2 := (List.mem_filter.1 hp).2
    intro hemp
    rw [hemp] at h2
    exact absurd h2 (by decide)
  · intro hnd
    rw [he]
    exact hnd.filter _
  · rw [he, List.filter_eq_nil_iff]
    constructor
    · intro h p hp
      have h2 := h p hp
      rw [Bool.not_eq_true, Bool.not_eq_false'] at h2
      exact (String.isEmpty_iff _).1 h2
    · intro h p hp
      rw [Bool.not_eq_true, Bool.not_eq_false']
      exact (String.isEmpty_iff _).2 (h p hp)

/-- Witness for C4 (amended) at a one-candidate ranking over page 3. -/
theorem C4_limitedPages_spec_witness :
    jsTrim ((mapGet [((3 : Int), "x")] 3).getD "") ≠ "" :=
  (C4_limitedPages_spec (rankedOf Scope.global
      ([⟨3, 0, 0, false⟩] : List (Prelim ℚ))) [((3 : Int), "x")]).2.1 3
    (by decide)

/-- C5 counterexample: no character budget is enforced.  With a single
candidate page of 3500 characters, retrieval includes the page whole and
the assembled context has 3518 characters, exceeding 3000 — the only
character budget ever configured in the repository (the unused
`MAX_CONTEXT_TOKENS = 3000` of the legacy handler); the over-budget page
is neither excluded nor truncated. -/
theorem C5_counterexample :
    3000 < ((retrieveFrom Scope.global ([⟨1, 0, 0, false⟩] : List (Prelim ℚ))
        [(1, String.mk (List.replicate 3500 'a'))]).contextText).length
    ∧ (retrieveFrom Scope.global ([⟨1, 0, 0, false⟩] : List (Prelim ℚ))
        [(1, String.mk (List.replicate 3500 'a'))]).pages = [1] := by
  have hws : Char.isWhitespace 'a' = false := by decide
  have hget : mapGet [((1 : Int), String.mk (List.replicate 3500 'a'))] 1
      = some (String.mk (List.replicate 3500 'a')) := rfl
  have htrim : jsTrim (String.mk (List.replicate 3500 'a'))
      = String.mk (List.replicate 3500 'a') := by
    show String.mk ((((List.replicate 3500 'a').dropWhile Char.isWhitespace).reverse.dropWhile
      Char.isWhitespace).reverse) = _
    rw [dropWhile_of_head_false hws, List.reverse_replicate,
      dropWhile_of_head_false hws, List.reverse_replicate]
  have hlong : (String.mk (List.replicate 3500 'a')).length = 3500 := by
    show (List.replicate 3500 'a').length = 3500
    exact List.length_replicate 3500 'a'
  have hne : String.mk (List.replicate 3500 'a') ≠ "" := by
    intro h
    have h2 := congrArg String.length h
    rw [hlong] at h2
    exact absurd h2 (by norm_num)
  have hempty : (String.mk (List.replicate 3500 'a')).isEmpty = false := by
    cases h : (String.mk (List.replicate 3500 'a')).isEmpty with
    | false => rfl
    | true => exact absurd ((String.isEmpty_iff _).1 h) hne
  have hpred : (!(jsTrim ((mapGet [((1 : Int), String.mk (List.replicate 3500 'a'))] 1).getD
      "")).isEmpty) = true := by
    rw [hget]
    show (!(jsTrim (String.mk (List.replicate 3500 'a'))).isEmpty) = true
    rw [htrim, hempty]
    rfl
  have hlp : limitedPagesOf (rankedOf Scope.global ([⟨1, 0, 0, false⟩] : List (Prelim ℚ)))
      [(1, String.mk (List.replicate 3500 'a'))] = [1] := by
    rw [limitedPagesOf_eq, nonEmptyPagesOf_eq]
    show List.filter _ [(1 : Int)] = [1]
    rw [List.filter_cons, hpred]
    rfl
  have hctx : contextTextOf [1] [((1 : Int), String.mk (List.replicate 3500 'a'))]
      = pageBlock [((1 : Int), String.mk (List.replicate 3500 'a'))] 1 := rfl
  have hlen : (pageBlock [((1 : Int), String.mk (List.replicate 3500 'a'))] 1).length = 3518 := by
    unfold pageBlock
    rw [hget]
    show ("--- Página " ++ toString (1 : Int) ++ " ---\n"
      ++ jsTrim (String.mk (List.replicate 3500 'a')) ++ "\n").length = 3518
    rw [htrim, String.length_append, String.length_append, String.length_append,
      String.length_append, hlong]
    have e1 : ("--- Página " : String).length = 11 := by decide
    have e2 : (toString (1 : Int)).length = 1 := by decide
    have e3 : (" ---\n" : String).length = 5 := by decide
    have e4 : ("\n" : String).length = 1 := by decide
    rw [e1, e2, e3, e4]
  have hre := retrieveFrom_eq_found Scope.global ([⟨1, 0, 0, false⟩] : List (Prelim ℚ))
    [(1, String.mk (List.replicate 3500 'a'))] rfl (by rw [hlp]; rfl)
  rw [hlp] at hre
  rw [hctx] at hre
  rw [hre]
  constructor
  · show 3000 < (pageBlock [((1 : Int), String.mk (List.replicate 3500 'a'))] 1).length
    rw [hlen]
    norm_num
  · rfl

/-- C5 (amended): the context is bounded by page count, not by characters:
at most `MAX_CONTEXT_PAGES` pages are assembled, and every included page's
block (header plus full trimmed text) appears contiguously in the context,
so pages are included whole, never truncated mid-text; no character budget
exists. -/
theorem C5_context_page_budget {α : Type} [LinearOrderedField α]
    (ranked : List (Ranked α)) (pm : PageMap) :
    (limitedPagesOf ranked pm).length ≤ MAX_CONTEXT_PAGES
    ∧ ∀ p ∈ limitedPagesOf ranked pm, ∃ pre post : String,
        contextTextOf (limitedPagesOf ranked pm) pm
          = pre ++ pageBlock pm p ++ post := by
  constructor
  · rw [limitedPagesOf_eq, nonEmptyPagesOf_eq]
    have h1 : ((selectedPagesOf ranked).filter
        (fun p => !((jsTrim ((mapGet pm p).getD "")).isEmpty))).length
        ≤ TOP_PAGES_TO_SELECT :=
      le_trans (List.length_filter_le _ _) (length_selectedPagesOf ranked)
    unfold TOP_PAGES_TO_SELECT at h1
    unfold MAX_CONTEXT_PAGES
    omega
  · intro p hp
    exact joinSep_infix "\n" ((limitedPagesOf ranked pm).map (pageBlock pm))
      (pageBlock pm p) (List.mem_map.2 ⟨p, hp, rfl⟩)

/-- Witness for C5 (amended) at a one-candidate ranking over page 1. -/
theorem C5_context_page_budget_witness :
    ∃ pre post : String,
      contextTextOf (limitedPagesOf (rankedOf Scope.global
          ([⟨1, 0, 0, false⟩] : List (Prelim ℚ))) [((1 : Int), "t")])
          [((1 : Int), "t")]
        = pre ++ pageBlock [((1 : Int), "t")] 1 ++ post :=
  (C5_context_page_budget (rankedOf Scope.global
      ([⟨1, 0, 0, false⟩] : List (Prelim ℚ))) [((1 : Int), "t")]).2 1
    (by decide)

/-- C6: when the candidate scope resolves to zero usable pages (every
candidate page lacks an embedding), retrieval terminates normally with an
empty page list and an empty context, flagged as the normal "not found"
outcome — a plain return value, not an exception. -/
theorem C6_empty_scope_normal {α : Type} [LinearOrderedField α]
    (S : List Int) (pm : PageMap) (emb : EmbMap α) (score : List α → α)
    (qT : List String)
    (h : ∀ p ∈ (candidateScope S pm emb).2, mapGet emb p = none) :
    retrieve S pm emb score qT
      = { pages := [], contextText := "", notFound := true } := by
  unfold retrieve
  have hb : buildPrelim (candidateScope S pm emb).2 emb pm score qT S = [] := by
    unfold buildPrelim
    rw [List.filterMap_eq_nil_iff]
    intro p hp
    rw [h p hp]
    rfl
  show retrieveFrom (candidateScope S pm emb).1
    (buildPrelim (candidateScope S pm emb).2 emb pm score qT S) pm = _
  rw [hb]
  rfl

/-- Witness for C6: a corpus with one text page and no embeddings at all
resolves to an empty scope and retrieval returns the empty outcome. -/
theorem C6_empty_scope_normal_witness :
    retrieve (α := ℚ) [] [(1, "x")] [] (fun _ => 0) []
      = { pages := [], contextText := "", notFound := true } :=
  C6_empty_scope_normal [] [(1, "x")] [] (fun _ => 0) [] (fun _ _ => rfl)

/-- C7 counterexample: `cosineSim` does not fail on a length mismatch:
on `a = [1]`, `b = [1, 1]` it returns an ordinary number, and the dot
product silently truncates to the shorter vector
(`dot [1] [1, 1] = dot [1] [1]`). -/
theorem C7_counterexample :
    (cosineSim [1] [1, 1]).isSome = true ∧ dot [1] [1, 1] = dot [1] [1] := by
  constructor
  · unfold cosineSim dot
    norm_num
  · unfold dot dotTrunc
    norm_num

/-- C7 (amended): `cosineSim` never raises an error.  When
`a.length ≤ b.length` it returns `dot(a, b) / (‖a‖·‖b‖ + 1e-8)` where the
dot product walks the indices of `a` only (silently ignoring the tail of
`b`); in particular for equal lengths it returns exactly
`dot(a, b) / (‖a‖·‖b‖ + 1e-8)`.  When `a` is longer than `b` the result is
`NaN` (modelled `none`), not a length-mismatch error. -/
theorem C7_cosineSim_total (a b : List ℝ) :
    (a.length ≤ b.length →
      cosineSim a b = some (dotTrunc a b / (norm a * norm b + 1 / 100000000)))
    ∧ (b.length < a.length → cosineSim a b = none) := by
  constructor
  · intro h
    unfold cosineSim dot
    rw [if_pos h]
    rfl
  · intro h
    unfold cosineSim dot
    rw [if_neg (by omega)]
    rfl

/-- Witness for C7 (amended) at the equal-length pair `[1]`, `[1]`. -/
theorem C7_cosineSim_total_witness :
    cosineSim [1] [1] = some (dotTrunc [1] [1] / (norm [1] * norm [1] + 1 / 100000000)) :=
  (C7_cosineSim_total [1] [1]).1 (le_refl 1)

/-- C8: with selected pages `[10, 12]`, adjacency range 1, page 11 in the
page map and page 13 absent, the expansion returns `[10, 11, 12]`: it
includes 11 and excludes 13; in general a neighbour page is added only if
it exists in the page set, and the result is deduplicated and sorted
ascending. -/
theorem C8_expand_scenario :
    expandWithAdjacentPages [10, 12] [(10, "a"), (11, "b"), (12, "c")] 1 = [10, 11, 12]
    ∧ (11 : Int) ∈ expandWithAdjacentPages [10, 12] [(10, "a"), (11, "b"), (12, "c")] 1
    ∧ (13 : Int) ∉ expandWithAdjacentPages [10, 12] [(10, "a"), (11, "b"), (12, "c")] 1
    ∧ (∀ (sel : List Int) (pm : PageMap) (range : Nat) (y : Int),
        y ∈ expandWithAdjacentPages sel pm range → y ∈ sel ∨ mapHas pm y = true)
    ∧ (∀ (sel : List Int) (pm : PageMap) (range : Nat),
        (expandWithAdjacentPages sel pm range).Nodup
        ∧ List.Sorted (· ≤ ·) (expandWithAdjacentPages sel pm range)) := by
  refine ⟨by decide, by decide, by decide, ?_, ?_⟩
  · intro sel pm range y hy
    rcases mem_expandWithAdjacentPages.1 hy with ⟨p, hp, rfl | ⟨i, _, _, h2⟩⟩
    · exact Or.inl hp
    · exact Or.inr h2
  · intro sel pm range
    exact ⟨nodup_expandWithAdjacentPages, sorted_expandWithAdjacentPages⟩

/-- Witness for C8 at page 11 of the scenario input. -/
theorem C8_expand_scenario_witness :
    (11 : Int) ∈ ([10, 12] : List Int)
      ∨ mapHas [(10, "a"), (11, "b"), (12, "c")] (11 : Int) = true :=
  C8_expand_scenario.2.2.2.1 [10, 12] [(10, "a"), (11, "b"), (12, "c")] 1 11
    (by decide)

/-- C9: `normalizeStr` (lowercase, NFD decomposition, stripping combining
diacritics) is idempotent: `normalizeStr (normalizeStr x) = normalizeStr x`
for every string `x` (over the modelled character repertoire). -/
theorem C9_normalizeStr_idempotent (s : String) :
    normalizeStr (normalizeStr s) = normalizeStr s := by
  rw [normalizeStr_mk_data s,
    normalizeStr_mk_data (String.mk ((s.data.map normChar).flatten))]
  congr 1
  exact flatten_normChar_fix _ (fun d hd => by
    rcases List.mem_flatten.1 hd with ⟨ld, hld, hdin⟩
    rcases List.mem_map.1 hld with ⟨c, _, rfl⟩
    exact normChar_fix c hdin)

/-- C10: the expansion output contains every input page unconditionally —
page 99 is kept although the page map is empty — while a non-input member
of the output is always a present-in-the-map neighbour within the range. -/
theorem C10_expand_membership :
    (∀ (sel : List Int) (pm : PageMap) (range : Nat) (p : Int),
        p ∈ sel → p ∈ expandWithAdjacentPages sel pm range)
    ∧ ((99 : Int) ∈ expandWithAdjacentPages [99] [] 2)
    ∧ (∀ (sel : List Int) (pm : PageMap) (range : Nat) (y : Int),
        y ∈ expandWithAdjacentPages sel pm range →
          y ∈ sel ∨ (mapHas pm y = true ∧ ∃ p ∈ sel, ∃ i : Nat,
            1 ≤ i ∧ i ≤ range ∧ (y = p - (i : Int) ∨ y = p + (i : Int)))) := by
  refine ⟨?_, by decide, ?_⟩
  · intro sel pm range p hp
    exact mem_expandWithAdjacentPages.2 ⟨p, hp, Or.inl rfl⟩
  · intro sel pm range y hy
    rcases mem_expandWithAdjacentPages.1 hy with ⟨p, hp, rfl | ⟨i, hi, h1, h2⟩⟩
    · exact Or.inl hp
    · rcases mem_range_one.1 hi with ⟨ha, hb⟩
      exact Or.inr ⟨h2, p, hp, i, ha, hb, h1⟩

/-- Witness for C10: page 7 is in its own expansion over an empty page
map. -/
theorem C10_expand_membership_witness :
    (7 : Int) ∈ expandWithAdjacentPages [7] [] 0 :=
  C10_expand_membership.1 [7] [] 0 7 (by decide)

end ChatDuvidas
